import Mathlib

/-!
Shallow embedding of the `Semialign` / `Align` library (src/Semialign.ts,
src/Align.ts).  JavaScript arrays are modelled as `List`, optional values as
`Option`, string-keyed records as association lists with (implicitly unique)
`String` keys, and the `These` union type as a three-constructor inductive.
-/

set_option autoImplicit false

/-- The `These` union-of-two-values type (fp-ts `These`): left only,
right only, or both present. -/
inductive These (α β : Type) : Type
  | this_ : α → These α β
  | that : β → These α β
  | both : α → β → These α β
deriving DecidableEq, Repr

/-- `These.fold(onThis, onThat, onBoth)` — the three-way case analysis used by
the source (`xy.fold(...)`). -/
def These.fold {α β γ : Type} (t : These α β) (onThis : α → γ) (onThat : β → γ)
    (onBoth : α → β → γ) : γ :=
  match t with
  | These.this_ a => onThis a
  | These.that b => onThat b
  | These.both a b => onBoth a b

/-- `These.bimap(f, g)` — apply `f` to left components and `g` to right
components (fp-ts `These.bimap`). -/
def These.bimap {α β α' β' : Type} (t : These α β) (f : α → α') (g : β → β') :
    These α' β' :=
  match t with
  | These.this_ a => These.this_ (f a)
  | These.that b => These.that (g b)
  | These.both a b => These.both (f a) (g b)

/-- `option.alignWith` from src/Semialign.ts: the four-way branch on
`isSome`/`isNone` of the two inputs. -/
def optionAlignWith {α β γ : Type} (fa : Option α) (fb : Option β)
    (f : These α β → γ) : Option γ :=
  match fa, fb with
  | some a, some b => some (f (These.both a b))
  | none, some b => some (f (These.that b))
  | some a, none => some (f (These.this_ a))
  | none, none => none

/-- `option.align` from src/Semialign.ts: `alignWith` at the identity. -/
def optionAlign {α β : Type} (fa : Option α) (fb : Option β) :
    Option (These α β) :=
  optionAlignWith fa fb id

/-- `array.alignWith` from src/Semialign.ts.  The source loops by index:
`Both` for indices below `min(aLen, bLen)`, then — depending on
`aLen > bLen` — `this_` over the remaining left elements or `that` over the
remaining right elements.  The first loop is the `zipWith`, the second and
third are the `map`s over the dropped suffixes. -/
def arrayAlignWith {α β γ : Type} (fa : List α) (fb : List β)
    (f : These α β → γ) : List γ :=
  List.zipWith (fun a b => f (These.both a b)) fa fb ++
    (if fa.length > fb.length then
      (fa.drop fb.length).map (fun a => f (These.this_ a))
    else
      (fb.drop fa.length).map (fun b => f (These.that b)))

/-- `array.align` from src/Semialign.ts: `alignWith` at the identity. -/
def arrayAlign {α β : Type} (fa : List α) (fb : List β) : List (These α β) :=
  arrayAlignWith fa fb id

/-- fp-ts `NonEmptyArray`: a head element plus a possibly empty tail. -/
structure NonEmptyArray (α : Type) : Type where
  head : α
  tail : List α
deriving DecidableEq, Repr

/-- `nonEmptyArray.alignWith` from src/Semialign.ts:
`new NonEmptyArray(f(both(fa.head, fb.head)), array.alignWith(fa.tail, fb.tail, f))`. -/
def nonEmptyArrayAlignWith {α β γ : Type} (fa : NonEmptyArray α)
    (fb : NonEmptyArray β) (f : These α β → γ) : NonEmptyArray γ :=
  ⟨f (These.both fa.head fb.head), arrayAlignWith fa.tail fb.tail f⟩

/-- `nonEmptyArray.align` from src/Semialign.ts — implemented independently of
`alignWith`: `new NonEmptyArray(both(fa.head, fb.head), array.align(fa.tail, fb.tail))`. -/
def nonEmptyArrayAlign {α β : Type} (fa : NonEmptyArray α)
    (fb : NonEmptyArray β) : NonEmptyArray (These α β) :=
  ⟨These.both fa.head fb.head, arrayAlign fa.tail fb.tail⟩

/-- `recordAlignWith` from src/Semialign.ts.  A record is an association list
with unique `String` keys; `Object.keys` iteration is list order,
`hasOwnProperty`/indexing is `List.lookup`, and the two source loops are the
two list traversals (left keys first, then right-exclusive keys). -/
def recordAlignWith {α β γ : Type} (fa : List (String × α))
    (fb : List (String × β)) (f : These α β → γ) : List (String × γ) :=
  (fa.map (fun p =>
    match fb.lookup p.1 with
    | some b => (p.1, f (These.both p.2 b))
    | none => (p.1, f (These.this_ p.2)))) ++
  ((fb.filter (fun p => (fa.lookup p.1).isNone)).map
    (fun p => (p.1, f (These.that p.2))))

/-- `recordAlign` from src/Semialign.ts: `recordAlignWith` at the identity. -/
def recordAlign {α β : Type} (fa : List (String × α)) (fb : List (String × β)) :
    List (String × These α β) :=
  recordAlignWith fa fb id

/-- fp-ts `Record.map`, applied to the values of an association list. -/
def recordMap {α β : Type} (f : α → β) (fa : List (String × α)) :
    List (String × β) :=
  fa.map (fun p => (p.1, f p.2))

/-- `option.nil` from src/Align.ts: the absent optional value. -/
def optionNil {α : Type} : Option α := none

/-- `array.nil` from src/Align.ts: the empty sequence. -/
def arrayNil {α : Type} : List α := []

/-- `record.nil` from src/Align.ts: the empty mapping. -/
def recordNil {α : Type} : List (String × α) := []

/-- The `Semialign` dictionary of src/Semialign.ts: a functor together with
`align` and `alignWith`, passed explicitly to the generic combinators. -/
structure SemialignInst (F : Type → Type) : Type 1 where
  map : {α β : Type} → F α → (α → β) → F β
  align : {α β : Type} → F α → F β → F (These α β)
  alignWith : {α β γ : Type} → F α → F β → (These α β → γ) → F γ

/-- The `Align` dictionary of src/Align.ts: `Semialign` extended with `nil`. -/
structure AlignInst (F : Type → Type) extends SemialignInst F : Type 1 where
  nil : {α : Type} → F α

/-- The `option` instance assembled in src/Semialign.ts and src/Align.ts. -/
def optionAlignInst : AlignInst Option where
  map fa f := Option.map f fa
  align := optionAlign
  alignWith := optionAlignWith
  nil := optionNil

/-- The `array` instance assembled in src/Semialign.ts and src/Align.ts. -/
def arrayAlignInst : AlignInst List where
  map fa f := List.map f fa
  align := arrayAlign
  alignWith := arrayAlignWith
  nil := arrayNil

/-- The `record` instance assembled in src/Semialign.ts and src/Align.ts. -/
def recordAlignInst : AlignInst (fun α => List (String × α)) where
  map fa f := recordMap f fa
  align := recordAlign
  alignWith := recordAlignWith
  nil := recordNil

/-- The `nonEmptyArray` instance of src/Semialign.ts (a `Semialign` only:
there is no `nil` for non-empty sequences). -/
def nonEmptyArraySemialignInst : SemialignInst NonEmptyArray where
  map fa f := ⟨f fa.head, fa.tail.map f⟩
  align := nonEmptyArrayAlign
  alignWith := nonEmptyArrayAlignWith

/-- `salign` from src/Align.ts; the fp-ts `Semigroup` dictionary is its single
`concat` field, passed here as the bare function `S`. -/
def salign {F : Type → Type} (I : AlignInst F) {α : Type} (S : α → α → α)
    (fx fy : F α) : F α :=
  I.alignWith fx fy (fun xy => These.fold xy id id S)

/-- `padZipWith` from src/Align.ts:
`F.alignWith(fa, fb, ab => ab.bimap(some, some).fold(a => f(a, none), b => f(none, b), (a, b) => f(a, b)))`. -/
def padZipWith {F : Type → Type} (I : AlignInst F) {α β γ : Type} (fa : F α)
    (fb : F β) (f : Option α → Option β → γ) : F γ :=
  I.alignWith fa fb (fun ab =>
    These.fold (These.bimap ab some some) (fun a => f a none) (fun b => f none b)
      (fun a b => f a b))

/-- `padZip` from src/Align.ts: `padZipWith` with tuple construction. -/
def padZip {F : Type → Type} (I : AlignInst F) {α β : Type} (fa : F α)
    (fb : F β) : F (Option α × Option β) :=
  padZipWith I fa fb (fun a b => (a, b))

/-- fp-ts `catOptions`: keep the present values of a list of optionals. -/
def catOptions {α : Type} (xs : List (Option α)) : List α :=
  xs.filterMap id

/-- `lpadZipWith` from src/Align.ts:
`catOptions(padZipWith(array)(xs, ys, (ma, mb) => mb.map(b => f(ma, b))))`. -/
def lpadZipWith {α β γ : Type} (xs : List α) (ys : List β)
    (f : Option α → β → γ) : List γ :=
  catOptions (padZipWith arrayAlignInst xs ys (fun ma mb => mb.map (fun b => f ma b)))

/-- `lpadZip` from src/Align.ts: `lpadZipWith` with tuple construction. -/
def lpadZip {α β : Type} (xs : List α) (ys : List β) : List (Option α × β) :=
  lpadZipWith xs ys (fun a b => (a, b))

/-- `rpadZipWith` from src/Align.ts: `lpadZipWith(ys, xs, (a, b) => f(b, a))`. -/
def rpadZipWith {α β γ : Type} (xs : List α) (ys : List β)
    (f : α → Option β → γ) : List γ :=
  lpadZipWith ys xs (fun a b => f b a)

/-- `rpadZip` from src/Align.ts: `rpadZipWith` with tuple construction. -/
def rpadZip {α β : Type} (xs : List α) (ys : List β) : List (α × Option β) :=
  rpadZipWith xs ys (fun a b => (a, b))

/-- Bounds-checked transcription of the `array.alignWith` index loops: every
array access `fa[i]` / `fb[i]` of the source goes through the partial lookup
`l[i]?` and the whole computation fails (`none`) if any access is out of
bounds.  Used to state that the loops never access an index out of bounds. -/
def arrayAlignWithIdx {α β γ : Type} (fa : List α) (fb : List β)
    (f : These α β → γ) : Option (List γ) :=
  let aLen := fa.length
  let bLen := fb.length
  let len := Nat.min aLen bLen
  Option.bind
    ((List.range len).mapM (fun i =>
      (fa[i]?).bind (fun a => (fb[i]?).map (fun b => f (These.both a b)))))
    (fun fst =>
      Option.map (fun rest => fst ++ rest)
        (if aLen > bLen then
          (List.range' bLen (aLen - bLen)).mapM
            (fun i => (fa[i]?).map (fun a => f (These.this_ a)))
        else
          (List.range' aLen (bLen - aLen)).mapM
            (fun i => (fb[i]?).map (fun b => f (These.that b)))))

/-! Structural characterisation of the `array.alignWith` loops. -/

theorem arrayAlignWith_nil_left {α β γ : Type} (ys : List β) (f : These α β → γ) :
    arrayAlignWith [] ys f = ys.map (fun b => f (These.that b)) := by
  simp [arrayAlignWith]

theorem arrayAlignWith_nil_right {α β γ : Type} (xs : List α) (f : These α β → γ) :
    arrayAlignWith xs [] f = xs.map (fun a => f (These.this_ a)) := by
  cases xs <;> simp [arrayAlignWith]

theorem arrayAlignWith_cons {α β γ : Type} (a : α) (as : List α) (b : β)
    (bs : List β) (f : These α β → γ) :
    arrayAlignWith (a :: as) (b :: bs) f
      = f (These.both a b) :: arrayAlignWith as bs f := by
  simp [arrayAlignWith, Nat.succ_lt_succ_iff]

theorem arrayAlignWith_length {α β γ : Type} (xs : List α) (ys : List β)
    (f : These α β → γ) :
    (arrayAlignWith xs ys f).length = Nat.max xs.length ys.length := by
  induction xs generalizing ys with
  | nil => simp [arrayAlignWith_nil_left]
  | cons a as ih =>
    cases ys with
    | nil => simp [arrayAlignWith_nil_right]
    | cons b bs => simp [arrayAlignWith_cons, ih, Nat.succ_max_succ]

theorem arrayAlignWith_getElem_both {α β γ : Type} (xs : List α) (ys : List β)
    (f : These α β → γ) (i : Nat) (a : α) (b : β) (ha : xs[i]? = some a)
    (hb : ys[i]? = some b) :
    (arrayAlignWith xs ys f)[i]? = some (f (These.both a b)) := by
  induction xs generalizing ys i with
  | nil => simp at ha
  | cons x xs ih =>
    cases ys with
    | nil => simp at hb
    | cons y ys =>
      cases i with
      | zero =>
        simp only [List.getElem?_cons_zero, Option.some_inj] at ha hb
        subst ha; subst hb
        simp [arrayAlignWith_cons]
      | succ n =>
        simp only [List.getElem?_cons_succ] at ha hb
        simp [arrayAlignWith_cons, ih ys n ha hb]

theorem arrayAlignWith_getElem_left {α β γ : Type} (xs : List α) (ys : List β)
    (f : These α β → γ) (i : Nat) (a : α) (ha : xs[i]? = some a)
    (hy : ys.length ≤ i) :
    (arrayAlignWith xs ys f)[i]? = some (f (These.this_ a)) := by
  induction xs generalizing ys i with
  | nil => simp at ha
  | cons x xs ih =>
    cases ys with
    | nil =>
      rw [arrayAlignWith_nil_right, List.getElem?_map, ha]
      rfl
    | cons y ys =>
      cases i with
      | zero => simp at hy
      | succ n =>
        simp only [List.getElem?_cons_succ] at ha
        simp only [List.length_cons, Nat.succ_le_succ_iff] at hy
        simp [arrayAlignWith_cons, ih ys n ha hy]

theorem arrayAlignWith_getElem_right {α β γ : Type} (xs : List α) (ys : List β)
    (f : These α β → γ) (i : Nat) (b : β) (hb : ys[i]? = some b)
    (hx : xs.length ≤ i) :
    (arrayAlignWith xs ys f)[i]? = some (f (These.that b)) := by
  induction xs generalizing ys i with
  | nil =>
    rw [arrayAlignWith_nil_left, List.getElem?_map, hb]
    rfl
  | cons x xs ih =>
    cases ys with
    | nil => simp at hb
    | cons y ys =>
      cases i with
      | zero => simp at hx
      | succ n =>
        simp only [List.getElem?_cons_succ] at hb
        simp only [List.length_cons, Nat.succ_le_succ_iff] at hx
        simp [arrayAlignWith_cons, ih ys n hb hx]

example : arrayAlign [1, 2] ["a"] = [These.both 1 "a", These.this_ 2] := by decide
example : arrayAlign [1] ["a", "b"] = [These.both 1 "a", These.that "b"] := by decide
example : salign arrayAlignInst (· + ·) [1, 2, 3] [4, 5] = [5, 7, 3] := by decide
example : lpadZip [1, 2] ["a", "b", "c"]
    = [(some 1, "a"), (some 2, "b"), (none, "c")] := by decide
example : rpadZip [1, 2, 3] ["a", "b"]
    = [(1, some "a"), (2, some "b"), (3, none)] := by decide
example : recordAlign [("a", 1), ("b", 2)] [("a", "x")]
    = [("a", These.both 1 "x"), ("b", These.this_ 2)] := by decide
example : arrayAlignWithIdx [1, 2, 3] [4, 5] id
    = some (arrayAlign [1, 2, 3] [4, 5]) := by decide

/-- C1: for the sequence (`array`) instance, `align` and `alignWith` (under any
`f`) produce a result of length `max(length xs, length ys)`; every index below
`min` of the lengths holds `Both(xs[i], ys[i])`, and every remaining index of
the longer input holds `LeftOnly(xs[i])` when `xs` is longer and
`RightOnly(ys[i])` when `ys` is longer, at its original index. -/
theorem C1_array_align_shape {α β γ : Type} (xs : List α) (ys : List β)
    (f : These α β → γ) :
    (arrayAlignWith xs ys f).length = Nat.max xs.length ys.length ∧
    (arrayAlign xs ys).length = Nat.max xs.length ys.length ∧
    (∀ (i : Nat) (a : α) (b : β), xs[i]? = some a → ys[i]? = some b →
      (arrayAlign xs ys)[i]? = some (These.both a b)) ∧
    (∀ (i : Nat) (a : α), xs[i]? = some a → ys.length ≤ i →
      (arrayAlign xs ys)[i]? = some (These.this_ a)) ∧
    (∀ (i : Nat) (b : β), ys[i]? = some b → xs.length ≤ i →
      (arrayAlign xs ys)[i]? = some (These.that b)) := by
  refine ⟨arrayAlignWith_length xs ys f, arrayAlignWith_length xs ys id, ?_, ?_, ?_⟩
  · intro i a b ha hb
    exact arrayAlignWith_getElem_both xs ys id i a b ha hb
  · intro i a ha hy
    exact arrayAlignWith_getElem_left xs ys id i a ha hy
  · intro i b hb hx
    exact arrayAlignWith_getElem_right xs ys id i b hb hx

theorem C1_array_align_shape_witness :
    (arrayAlign [10, 20] [true]).length = 2 ∧
    (arrayAlign [10, 20] [true])[0]? = some (These.both 10 true) ∧
    (arrayAlign [10, 20] [true])[1]? = some (These.this_ 20) ∧
    (arrayAlign [10] [true, false])[1]? = some (These.that false) := by
  have h := C1_array_align_shape [10, 20] [true] id
  have h2 := C1_array_align_shape [10] [true, false] id
  refine ⟨?_, ?_, ?_, ?_⟩
  · simpa using h.2.1
  · exact h.2.2.1 0 10 true rfl rfl
  · exact h.2.2.2.1 1 20 rfl (by decide)
  · exact h2.2.2.2.2 1 false rfl (by decide)

/-- C3: for every instance (optional value, sequence, non-empty sequence,
string-keyed mapping), `align fa fb = alignWith fa fb id` — including the
non-empty sequence instance, whose `align` is implemented independently. -/
theorem C3_align_eq_alignWith_id :
    (∀ (α β : Type) (fa : Option α) (fb : Option β),
      optionAlign fa fb = optionAlignWith fa fb id) ∧
    (∀ (α β : Type) (xs : List α) (ys : List β),
      arrayAlign xs ys = arrayAlignWith xs ys id) ∧
    (∀ (α β : Type) (fa : NonEmptyArray α) (fb : NonEmptyArray β),
      nonEmptyArrayAlign fa fb = nonEmptyArrayAlignWith fa fb id) ∧
    (∀ (α β : Type) (m1 : List (String × α)) (m2 : List (String × β)),
      recordAlign m1 m2 = recordAlignWith m1 m2 id) :=
  ⟨fun _ _ _ _ => rfl, fun _ _ _ _ => rfl, fun _ _ _ _ => rfl, fun _ _ _ _ => rfl⟩

/-- C4: for the non-empty sequence instance, `align fa fb` has head
`Both(head fa, head fb)` and tail equal to the sequence-instance alignment of
the tails; likewise for `alignWith` under any `f`.  As a consequence the whole
result, viewed head-first, is the sequence alignment of the inputs viewed
head-first. -/
theorem C4_nonEmptyArray_align_head_tail {α β : Type} (fa : NonEmptyArray α)
    (fb : NonEmptyArray β) :
    (nonEmptyArrayAlign fa fb).head = These.both fa.head fb.head ∧
    (nonEmptyArrayAlign fa fb).tail = arrayAlign fa.tail fb.tail ∧
    (nonEmptyArrayAlign fa fb).head :: (nonEmptyArrayAlign fa fb).tail
      = arrayAlign (fa.head :: fa.tail) (fb.head :: fb.tail) ∧
    (∀ (γ : Type) (f : These α β → γ),
      (nonEmptyArrayAlignWith fa fb f).head = f (These.both fa.head fb.head) ∧
      (nonEmptyArrayAlignWith fa fb f).tail = arrayAlignWith fa.tail fb.tail f) := by
  refine ⟨rfl, rfl, ?_, fun γ f => ⟨rfl, rfl⟩⟩
  simp [nonEmptyArrayAlign, arrayAlign, arrayAlignWith_cons]

/-- C5: for each `Align` instance, aligning against `nil` on the right maps the
container with `LeftOnly`, and aligning against `nil` on the left maps it with
`RightOnly` (optional value → absent, sequence → empty sequence, mapping →
empty mapping). -/
theorem C5_identity_laws :
    (∀ (α β : Type) (fa : Option α),
      optionAlign fa (optionNil : Option β) = Option.map These.this_ fa) ∧
    (∀ (α β : Type) (fb : Option β),
      optionAlign (optionNil : Option α) fb = Option.map These.that fb) ∧
    (∀ (α β : Type) (xs : List α),
      arrayAlign xs (arrayNil : List β) = xs.map These.this_) ∧
    (∀ (α β : Type) (ys : List β),
      arrayAlign (arrayNil : List α) ys = ys.map These.that) ∧
    (∀ (α β : Type) (m : List (String × α)),
      recordAlign m (recordNil : List (String × β)) = recordMap These.this_ m) ∧
    (∀ (α β : Type) (m : List (String × β)),
      recordAlign (recordNil : List (String × α)) m = recordMap These.that m) := by
  refine ⟨?_, ?_, ?_, ?_, ?_, ?_⟩
  · intro α β fa; cases fa <;> rfl
  · intro α β fb; cases fb <;> rfl
  · intro α β xs; simp [arrayAlign, arrayNil, arrayAlignWith_nil_right]
  · intro α β ys; simp [arrayAlign, arrayNil, arrayAlignWith_nil_left]
  · intro α β m; simp [recordAlign, recordAlignWith, recordNil, recordMap]
  · intro α β m; simp [recordAlign, recordAlignWith, recordNil, recordMap]

/-- C6: for every `Align` instance and semigroup (given by its `concat`
function `S`), `salign I S fx fy` is `alignWith fx fy t` where `t` sends
`LeftOnly a` to `a`, `RightOnly b` to `b` and `Both a b` to `S a b`; in
particular with the sequence instance and numeric sum,
`salign [1,2,3] [4,5] = [5,7,3]`. -/
theorem C6_salign_spec :
    (∀ (F : Type → Type) (I : AlignInst F) (α : Type) (S : α → α → α)
        (fx fy : F α),
      salign I S fx fy = I.alignWith fx fy (fun t =>
        match t with
        | These.this_ a => a
        | These.that b => b
        | These.both a b => S a b)) ∧
    salign arrayAlignInst (· + ·) [1, 2, 3] [4, 5] = [5, 7, 3] := by
  constructor
  · intro F I α S fx fy
    exact congrArg (I.alignWith fx fy) (funext fun t => by cases t <;> rfl)
  · decide

/-! Association-list lookup toolkit for the record instance. -/

theorem lookup_append_assoc {α : Type} (k : String) (l1 l2 : List (String × α)) :
    (l1 ++ l2).lookup k =
      (match l1.lookup k with
       | some v => some v
       | none => l2.lookup k) := by
  induction l1 with
  | nil => simp
  | cons p t ih =>
    obtain ⟨k1, v1⟩ := p
    cases hk : k == k1 <;> simp [List.lookup_cons, hk, ih]

theorem lookup_map_pair {α γ : Type} (g : String × α → γ) (k : String)
    (m : List (String × α)) :
    (m.map (fun p => (p.1, g p))).lookup k
      = (m.lookup k).map (fun a => g (k, a)) := by
  induction m with
  | nil => simp
  | cons p t ih =>
    obtain ⟨k1, v1⟩ := p
    cases hk : k == k1
    · simp [List.lookup_cons, hk, ih]
    · have heq : k = k1 := by simpa using hk
      subst heq
      simp [List.lookup_cons, hk]

theorem lookup_filter_keyed {β : Type} (Q : String → Bool) (k : String)
    (hQ : Q k = true) (m : List (String × β)) :
    (m.filter (fun p => Q p.1)).lookup k = m.lookup k := by
  induction m with
  | nil => simp
  | cons p t ih =>
    obtain ⟨k1, v1⟩ := p
    by_cases hq : Q k1
    · simp [List.filter_cons, hq, List.lookup_cons, ih]
    · cases hk : k == k1
      · simp [List.filter_cons, hq, List.lookup_cons, hk, ih]
      · have heq : k = k1 := by simpa using hk
        subst heq
        exact absurd hQ hq

theorem lookup_eq_none_iff_keys {β : Type} (m : List (String × β)) (k : String) :
    m.lookup k = none ↔ k ∉ m.map Prod.fst := by
  induction m with
  | nil => simp
  | cons p t ih =>
    obtain ⟨k1, v1⟩ := p
    cases hk : k == k1
    · have hne : k ≠ k1 := by simpa using hk
      simp [List.lookup_cons, hk, ih, hne]
    · have heq : k = k1 := by simpa using hk
      subst heq
      simp [List.lookup_cons, hk]

theorem recordAlignWith_fst_map {α β γ : Type} (fa : List (String × α))
    (fb : List (String × β)) (f : These α β → γ) :
    (fa.map (fun p =>
      match fb.lookup p.1 with
      | some b => (p.1, f (These.both p.2 b))
      | none => (p.1, f (These.this_ p.2))))
    = fa.map (fun p => (p.1,
        match fb.lookup p.1 with
        | some b => f (These.both p.2 b)
        | none => f (These.this_ p.2))) :=
  congrArg (fun g => fa.map g) (funext fun p => by cases fb.lookup p.1 <;> rfl)

theorem recordAlignWith_lookup_both {α β γ : Type} (fa : List (String × α))
    (fb : List (String × β)) (f : These α β → γ) (k : String) (a : α) (b : β)
    (ha : fa.lookup k = some a) (hb : fb.lookup k = some b) :
    (recordAlignWith fa fb f).lookup k = some (f (These.both a b)) := by
  simp only [recordAlignWith]
  rw [recordAlignWith_fst_map, lookup_append_assoc, lookup_map_pair]
  simp [ha, hb]

theorem recordAlignWith_lookup_left {α β γ : Type} (fa : List (String × α))
    (fb : List (String × β)) (f : These α β → γ) (k : String) (a : α)
    (ha : fa.lookup k = some a) (hb : fb.lookup k = none) :
    (recordAlignWith fa fb f).lookup k = some (f (These.this_ a)) := by
  simp only [recordAlignWith]
  rw [recordAlignWith_fst_map, lookup_append_assoc, lookup_map_pair]
  simp [ha, hb]

theorem recordAlignWith_lookup_right {α β γ : Type} (fa : List (String × α))
    (fb : List (String × β)) (f : These α β → γ) (k : String) (b : β)
    (ha : fa.lookup k = none) (hb : fb.lookup k = some b) :
    (recordAlignWith fa fb f).lookup k = some (f (These.that b)) := by
  simp only [recordAlignWith]
  rw [recordAlignWith_fst_map, lookup_append_assoc, lookup_map_pair, ha]
  simp only [Option.map_none']
  rw [lookup_map_pair, lookup_filter_keyed (fun x => (fa.lookup x).isNone) k
    (by simp [ha]), hb]
  rfl

theorem recordAlignWith_keys {α β γ : Type} (fa : List (String × α))
    (fb : List (String × β)) (f : These α β → γ) :
    (recordAlignWith fa fb f).map Prod.fst
      = fa.map Prod.fst
        ++ (fb.filter (fun p => (fa.lookup p.1).isNone)).map Prod.fst := by
  simp only [recordAlignWith, List.map_append, List.map_map]
  congr 1
  · exact congrArg (fun g => fa.map g)
      (funext fun p => by
        simp only [Function.comp]
        cases fb.lookup p.1 <;> rfl)

theorem mem_keys_filter {α β : Type} (m1 : List (String × α))
    (m2 : List (String × β)) (k : String) :
    k ∈ (m2.filter (fun p => (m1.lookup p.1).isNone)).map Prod.fst
      ↔ k ∈ m2.map Prod.fst ∧ m1.lookup k = none := by
  simp only [List.mem_map, List.mem_filter]
  constructor
  · rintro ⟨p, ⟨hp, hq⟩, rfl⟩
    exact ⟨⟨p, hp, rfl⟩, by simpa using hq⟩
  · rintro ⟨⟨p, hp, rfl⟩, hnone⟩
    exact ⟨p, ⟨hp, by simpa using hnone⟩, rfl⟩

/-- C2: for the string-keyed record instance, the key set of `align m1 m2` is
the union of the two key sets with each key exactly once (keys of `m1` in
order first, then the keys exclusive to `m2`); a key in both records maps to
`Both`, a key only in `m1` to `LeftOnly`, and a key only in `m2` to
`RightOnly`. -/
theorem C2_record_align_shape {α β : Type} (m1 : List (String × α))
    (m2 : List (String × β)) (h1 : (m1.map Prod.fst).Nodup)
    (h2 : (m2.map Prod.fst).Nodup) :
    ((recordAlign m1 m2).map Prod.fst).Nodup ∧
    (∀ k : String, k ∈ (recordAlign m1 m2).map Prod.fst
      ↔ k ∈ m1.map Prod.fst ∨ k ∈ m2.map Prod.fst) ∧
    (∀ (k : String) (a : α) (b : β), m1.lookup k = some a →
      m2.lookup k = some b →
      (recordAlign m1 m2).lookup k = some (These.both a b)) ∧
    (∀ (k : String) (a : α), m1.lookup k = some a → m2.lookup k = none →
      (recordAlign m1 m2).lookup k = some (These.this_ a)) ∧
    (∀ (k : String) (b : β), m1.lookup k = none → m2.lookup k = some b →
      (recordAlign m1 m2).lookup k = some (These.that b)) ∧
    (recordAlign m1 m2).map Prod.fst
      = m1.map Prod.fst
        ++ (m2.filter (fun p => (m1.lookup p.1).isNone)).map Prod.fst := by
  refine ⟨?_, ?_, ?_, ?_, ?_, recordAlignWith_keys m1 m2 id⟩
  · rw [recordAlign, recordAlignWith_keys]
    refine h1.append ?_ ?_
    · exact ((m2.filter_sublist).map Prod.fst).nodup h2
    · intro k hk1 hk2
      rw [mem_keys_filter] at hk2
      exact absurd hk1 ((lookup_eq_none_iff_keys m1 k).mp hk2.2)
  · intro k
    rw [recordAlign, recordAlignWith_keys, List.mem_append, mem_keys_filter]
    by_cases hnone : m1.lookup k = none
    · simp [hnone]
    · have hk1 : k ∈ m1.map Prod.fst := by
        by_contra hn
        exact hnone ((lookup_eq_none_iff_keys m1 k).mpr hn)
      simp [hnone, hk1]
  · intro k a b ha hb
    exact recordAlignWith_lookup_both m1 m2 id k a b ha hb
  · intro k a ha hb
    exact recordAlignWith_lookup_left m1 m2 id k a ha hb
  · intro k b ha hb
    exact recordAlignWith_lookup_right m1 m2 id k b ha hb

theorem C2_record_align_shape_witness :
    ((recordAlign [("a", 1), ("b", 2)] [("a", true), ("c", false)]).map
      Prod.fst).Nodup ∧
    (recordAlign [("a", 1), ("b", 2)] [("a", true), ("c", false)]).lookup "a"
      = some (These.both 1 true) ∧
    (recordAlign [("a", 1), ("b", 2)] [("a", true), ("c", false)]).lookup "b"
      = some (These.this_ 2) ∧
    (recordAlign [("a", 1), ("b", 2)] [("a", true), ("c", false)]).lookup "c"
      = some (These.that false) := by
  have h := C2_record_align_shape [("a", 1), ("b", 2)] [("a", true), ("c", false)]
    (by decide) (by decide)
  exact ⟨h.1, h.2.2.1 "a" 1 true (by decide) (by decide),
    h.2.2.2.1 "b" 2 (by decide) (by decide),
    h.2.2.2.2.1 "c" false (by decide) (by decide)⟩

/-! Structural characterisation of `lpadZipWith`. -/

theorem padZipWith_array_eq {α β γ : Type} (xs : List α) (ys : List β)
    (f : Option α → Option β → γ) :
    padZipWith arrayAlignInst xs ys f = arrayAlignWith xs ys (fun ab =>
      These.fold (These.bimap ab some some) (fun a => f a none)
        (fun b => f none b) (fun a b => f a b)) :=
  rfl

theorem catOptions_map_some {β γ : Type} (g : β → γ) (ys : List β) :
    catOptions (ys.map (fun b => some (g b))) = ys.map g := by
  induction ys with
  | nil => rfl
  | cons y ys ih => simp only [catOptions, List.map_cons] at ih ⊢; simp [ih]

theorem catOptions_map_none {β γ : Type} (xs : List β) :
    catOptions (xs.map (fun _ => (none : Option γ))) = [] := by
  induction xs with
  | nil => rfl
  | cons x xs ih => simp [catOptions] at ih ⊢

theorem lpadZipWith_nil_left {α β γ : Type} (ys : List β) (f : Option α → β → γ) :
    lpadZipWith [] ys f = ys.map (fun b => f none b) := by
  rw [lpadZipWith, padZipWith_array_eq, arrayAlignWith_nil_left]
  exact catOptions_map_some (fun b => f none b) ys

theorem lpadZipWith_nil_right {α β γ : Type} (xs : List α) (f : Option α → β → γ) :
    lpadZipWith xs [] f = [] := by
  rw [lpadZipWith, padZipWith_array_eq, arrayAlignWith_nil_right]
  exact catOptions_map_none xs

theorem lpadZipWith_cons {α β γ : Type} (x : α) (xs : List α) (y : β)
    (ys : List β) (f : Option α → β → γ) :
    lpadZipWith (x :: xs) (y :: ys) f = f (some x) y :: lpadZipWith xs ys f := by
  simp only [lpadZipWith, padZipWith_array_eq, arrayAlignWith_cons, catOptions]
  simp [These.bimap, These.fold, List.filterMap_cons]

theorem lpadZipWith_length {α β γ : Type} (xs : List α) (ys : List β)
    (f : Option α → β → γ) :
    (lpadZipWith xs ys f).length = ys.length := by
  induction xs generalizing ys with
  | nil => simp [lpadZipWith_nil_left]
  | cons x xs ih =>
    cases ys with
    | nil => simp [lpadZipWith_nil_right]
    | cons y ys => simp [lpadZipWith_cons, ih]

theorem lpadZipWith_getElem_both {α β γ : Type} (xs : List α) (ys : List β)
    (f : Option α → β → γ) (i : Nat) (a : α) (b : β) (ha : xs[i]? = some a)
    (hb : ys[i]? = some b) :
    (lpadZipWith xs ys f)[i]? = some (f (some a) b) := by
  induction xs generalizing ys i with
  | nil => simp at ha
  | cons x xs ih =>
    cases ys with
    | nil => simp at hb
    | cons y ys =>
      cases i with
      | zero =>
        simp only [List.getElem?_cons_zero, Option.some_inj] at ha hb
        subst ha; subst hb
        simp [lpadZipWith_cons]
      | succ n =>
        simp only [List.getElem?_cons_succ] at ha hb
        simp [lpadZipWith_cons, ih ys n ha hb]

theorem lpadZipWith_getElem_right {α β γ : Type} (xs : List α) (ys : List β)
    (f : Option α → β → γ) (i : Nat) (b : β) (hx : xs.length ≤ i)
    (hb : ys[i]? = some b) :
    (lpadZipWith xs ys f)[i]? = some (f none b) := by
  induction xs generalizing ys i with
  | nil =>
    rw [lpadZipWith_nil_left, List.getElem?_map, hb]
    rfl
  | cons x xs ih =>
    cases ys with
    | nil => simp at hb
    | cons y ys =>
      cases i with
      | zero => simp at hx
      | succ n =>
        simp only [List.getElem?_cons_succ] at hb
        simp only [List.length_cons, Nat.succ_le_succ_iff] at hx
        simp [lpadZipWith_cons, ih ys n hx hb]

/-- C7: `lpadZipWith xs ys f` has length exactly `length ys`; at index `i` it
holds `f (some xs[i]) ys[i]` when `i < length xs` and `f none ys[i]`
otherwise, so excess elements of `xs` contribute nothing. -/
theorem C7_lpadZipWith_shape {α β γ : Type} (xs : List α) (ys : List β)
    (f : Option α → β → γ) :
    (lpadZipWith xs ys f).length = ys.length ∧
    (∀ (i : Nat) (a : α) (b : β), xs[i]? = some a → ys[i]? = some b →
      (lpadZipWith xs ys f)[i]? = some (f (some a) b)) ∧
    (∀ (i : Nat) (b : β), xs.length ≤ i → ys[i]? = some b →
      (lpadZipWith xs ys f)[i]? = some (f none b)) := by
  refine ⟨lpadZipWith_length xs ys f, ?_, ?_⟩
  · intro i a b ha hb
    exact lpadZipWith_getElem_both xs ys f i a b ha hb
  · intro i b hx hb
    exact lpadZipWith_getElem_right xs ys f i b hx hb

theorem C7_lpadZipWith_shape_witness :
    (lpadZipWith [1, 2, 3] [true, false] (fun ma b => (ma, b))).length = 2 ∧
    (lpadZipWith [1] [true, false] (fun ma b => (ma, b)))[0]?
      = some (some 1, true) ∧
    (lpadZipWith [1] [true, false] (fun ma b => (ma, b)))[1]?
      = some (none, false) := by
  have h := C7_lpadZipWith_shape [1, 2, 3] [true, false] (fun ma b => (ma, b))
  have h2 := C7_lpadZipWith_shape [1] [true, false] (fun ma b => (ma, b))
  exact ⟨h.1, h2.2.1 0 1 true rfl rfl, h2.2.2 1 false (by decide) rfl⟩

/-- C8: `rpadZipWith xs ys f` is the mirror of `lpadZipWith` with the two
sides swapped: its length is exactly `length xs`, and at index `i` it holds
`f xs[i] (some ys[i])` when `i < length ys` and `f xs[i] none` otherwise. -/
theorem C8_rpadZipWith_shape {α β γ : Type} (xs : List α) (ys : List β)
    (f : α → Option β → γ) :
    rpadZipWith xs ys f = lpadZipWith ys xs (fun b a => f a b) ∧
    (rpadZipWith xs ys f).length = xs.length ∧
    (∀ (i : Nat) (a : α) (b : β), xs[i]? = some a → ys[i]? = some b →
      (rpadZipWith xs ys f)[i]? = some (f a (some b))) ∧
    (∀ (i : Nat) (a : α), ys.length ≤ i → xs[i]? = some a →
      (rpadZipWith xs ys f)[i]? = some (f a none)) := by
  refine ⟨rfl, lpadZipWith_length ys xs _, ?_, ?_⟩
  · intro i a b ha hb
    exact lpadZipWith_getElem_both ys xs _ i b a hb ha
  · intro i a hy ha
    exact lpadZipWith_getElem_right ys xs _ i a hy ha

theorem C8_rpadZipWith_shape_witness :
    (rpadZipWith [1, 2] [true, false, true] (fun a mb => (a, mb))).length = 2 ∧
    (rpadZipWith [1, 2] [true] (fun a mb => (a, mb)))[0]?
      = some (1, some true) ∧
    (rpadZipWith [1, 2] [true] (fun a mb => (a, mb)))[1]?
      = some (2, none) := by
  have h := C8_rpadZipWith_shape [1, 2] [true, false, true] (fun a mb => (a, mb))
  have h2 := C8_rpadZipWith_shape [1, 2] [true] (fun a mb => (a, mb))
  exact ⟨h.2.1, h2.2.2.1 0 1 true rfl rfl, h2.2.2.2 1 2 (by decide) rfl⟩

/-! Success of the bounds-checked `array.alignWith` loops. -/

theorem mapM_option_eq_some {ι γ : Type} (F : ι → Option γ) :
    ∀ (xs : List ι) (ys : List γ), xs.map F = ys.map some →
      xs.mapM F = some ys := by
  intro xs
  induction xs with
  | nil =>
    intro ys h
    cases ys with
    | nil => rfl
    | cons y ys => simp at h
  | cons x xs ih =>
    intro ys h
    cases ys with
    | nil => simp at h
    | cons y ys =>
      simp only [List.map_cons, List.cons.injEq] at h
      rw [List.mapM_cons, h.1, ih ys h.2]
      rfl

theorem range_map_getElem_opt {δ γ : Type} (g : δ → γ) :
    ∀ l : List δ,
      (List.range l.length).map (fun j => (l[j]?).map g) = (l.map g).map some := by
  intro l
  induction l with
  | nil => rfl
  | cons x l ih =>
    rw [List.length_cons, List.range_succ_eq_map, List.map_cons, List.map_map]
    rw [show ((fun j => ((x :: l)[j]?).map g) ∘ Nat.succ)
        = (fun j => (l[j]?).map g) from funext fun j => by simp]
    simp [ih]

theorem range_map_zip_opt {α β γ : Type} (f : These α β → γ) :
    ∀ (fa : List α) (fb : List β),
      (List.range (Nat.min fa.length fb.length)).map (fun i =>
          (fa[i]?).bind (fun a => (fb[i]?).map (fun b => f (These.both a b))))
        = (List.zipWith (fun a b => f (These.both a b)) fa fb).map some := by
  intro fa
  induction fa with
  | nil => intro fb; simp
  | cons a as ih =>
    intro fb
    cases fb with
    | nil => simp
    | cons b bs =>
      have hmin : Nat.min (a :: as).length (b :: bs).length
          = Nat.min as.length bs.length + 1 :=
        Nat.succ_min_succ as.length bs.length
      rw [hmin, List.range_succ_eq_map, List.map_cons, List.map_map]
      rw [show ((fun i => (((a :: as)[i]?).bind
              (fun x => (((b :: bs)[i]?).map (fun y => f (These.both x y))))))
            ∘ Nat.succ)
          = (fun i => ((as[i]?).bind
              (fun x => ((bs[i]?).map (fun y => f (These.both x y))))))
          from funext fun i => by simp]
      simp [ih bs]

theorem range'_map_getElem_opt {δ γ : Type} (g : δ → γ) (l : List δ) (s : Nat) :
    (List.range' s (l.length - s)).map (fun i => (l[i]?).map g)
      = ((l.drop s).map g).map some := by
  rw [List.range'_eq_map_range, List.map_map]
  rw [show ((fun i => (l[i]?).map g) ∘ fun x => s + x)
      = (fun j => ((l.drop s)[j]?).map g)
      from funext fun j => by simp [List.getElem?_drop]]
  have h := range_map_getElem_opt g (l.drop s)
  rwa [List.length_drop] at h

/-- C9: the operations of the library are total; in particular every array
index accessed by the `array.alignWith` loops is in bounds — the
bounds-checked transcription `arrayAlignWithIdx`, in which every access
`fa[i]` / `fb[i]` can fail, never fails, and it agrees with the total
embedding `arrayAlignWith` on every input. -/
theorem C9_arrayAlignWithIdx_total {α β γ : Type} (fa : List α) (fb : List β)
    (f : These α β → γ) :
    arrayAlignWithIdx fa fb f = some (arrayAlignWith fa fb f) ∧
    (arrayAlignWithIdx fa fb f).isSome = true := by
  have hfst : (List.range (Nat.min fa.length fb.length)).mapM (fun i =>
      (fa[i]?).bind (fun a => (fb[i]?).map (fun b => f (These.both a b))))
      = some (List.zipWith (fun a b => f (These.both a b)) fa fb) :=
    mapM_option_eq_some _ _ _ (range_map_zip_opt f fa fb)
  have hmain : arrayAlignWithIdx fa fb f = some (arrayAlignWith fa fb f) := by
    simp only [arrayAlignWithIdx]
    rw [hfst, Option.some_bind]
    by_cases h : fa.length > fb.length
    · have hrest : (List.range' fb.length (fa.length - fb.length)).mapM
          (fun i => (fa[i]?).map (fun a => f (These.this_ a)))
          = some ((fa.drop fb.length).map (fun a => f (These.this_ a))) :=
        mapM_option_eq_some _ _ _
          (range'_map_getElem_opt (fun a => f (These.this_ a)) fa fb.length)
      rw [if_pos h, hrest, Option.map_some', arrayAlignWith, if_pos h]
    · have hrest : (List.range' fa.length (fb.length - fa.length)).mapM
          (fun i => (fb[i]?).map (fun b => f (These.that b)))
          = some ((fb.drop fa.length).map (fun b => f (These.that b))) :=
        mapM_option_eq_some _ _ _
          (range'_map_getElem_opt (fun b => f (These.that b)) fb fa.length)
      rw [if_neg h, hrest, Option.map_some', arrayAlignWith, if_neg h]
  exact ⟨hmain, by rw [hmain]; rfl⟩

/-- C10: for the optional-value instance, `padZip` and `padZipWith` return the
absent value exactly when both inputs are absent; the combining function is
never applied to a pair of two absent optionals (the result only depends on
its values at pairs that are not both `none`), and
`padZip option none none = none` rather than `some (none, none)`. -/
theorem C10_padZip_option :
    (∀ (α β : Type) (fa : Option α) (fb : Option β),
      (padZip optionAlignInst fa fb = none ↔ fa = none ∧ fb = none)) ∧
    (∀ (α β γ : Type) (fa : Option α) (fb : Option β)
        (f : Option α → Option β → γ),
      (padZipWith optionAlignInst fa fb f = none ↔ fa = none ∧ fb = none)) ∧
    (∀ (α β γ : Type) (fa : Option α) (fb : Option β)
        (f g : Option α → Option β → γ),
      (∀ (a : Option α) (b : Option β), ¬(a = none ∧ b = none) → f a b = g a b) →
      padZipWith optionAlignInst fa fb f = padZipWith optionAlignInst fa fb g) ∧
    padZip optionAlignInst (none : Option Nat) (none : Option Bool) = none := by
  refine ⟨?_, ?_, ?_, rfl⟩
  · intro α β fa fb
    cases fa <;> cases fb <;>
      simp [padZip, padZipWith, optionAlignInst, optionAlignWith]
  · intro α β γ fa fb f
    cases fa <;> cases fb <;>
      simp [padZipWith, optionAlignInst, optionAlignWith]
  · intro α β γ fa fb f g hfg
    cases fa with
    | none =>
      cases fb with
      | none => rfl
      | some b =>
        simp only [padZipWith, optionAlignInst, optionAlignWith, These.bimap,
          These.fold]
        rw [hfg none (some b) (by simp)]
    | some a =>
      cases fb with
      | none =>
        simp only [padZipWith, optionAlignInst, optionAlignWith, These.bimap,
          These.fold]
        rw [hfg (some a) none (by simp)]
      | some b =>
        simp only [padZipWith, optionAlignInst, optionAlignWith, These.bimap,
          These.fold]
        rw [hfg (some a) (some b) (by simp)]

theorem C10_padZip_option_witness :
    padZip optionAlignInst (none : Option Nat) (none : Option Bool) = none ∧
    padZipWith optionAlignInst (some 1) (some true)
        (fun (a : Option Nat) (b : Option Bool) => a.isSome || b.isSome)
      = padZipWith optionAlignInst (some 1) (some true)
        (fun (_ : Option Nat) (_ : Option Bool) => true) := by
  refine ⟨C10_padZip_option.2.2.2, ?_⟩
  refine C10_padZip_option.2.2.1 Nat Bool Bool (some 1) (some true) _ _ ?_
  intro a b h
  cases a with
  | some aa => rfl
  | none =>
    cases b with
    | some bb => rfl
    | none => exact absurd ⟨rfl, rfl⟩ h
